import Mathlib

/-!
Verification of the cantools `list` subcommand (`src/cantools/subparsers/list.py`)
and of the signal-codec round-trip property of the spec, as a shallow embedding
in Lean 4.

Conventions of the embedding:

* Python `print` calls are modelled as structured output items (`Line`), one
  constructor per distinct print statement; the textual indentation prefix is
  display-only and omitted.
* Python optional values (`None`) become `Option`; Python truthiness of a
  string (`if s:`) is `strTruthy`; truthiness of a dict/list is non-emptiness.
* Python floats are modelled as exact rationals (`ℚ`), the standard shallow
  embedding of numeric behavior.
* The rendering of a value through a Python format specifier
  (`f'{val:{spec}}'`) is abstracted as a function argument
  `render : PVal → String`; the claims under verification quantify over it.
-/

/-- Physical signal values as they reach `_format_val` in list.py: a number
(int or float), a plain string, or a `NamedSignalValue` (shown by its label). -/
inductive PVal where
  | num (q : ℚ)
  | str (s : String)
  | named (label : String)
deriving DecidableEq

/-- Values of a `choices` dictionary: plain strings or `NamedSignalValue`
objects (label plus per-language comments). -/
inductive ChoiceVal where
  | plain (s : String)
  | namedVal (label : String) (comments : List (String × String))
deriving DecidableEq

/-- Python truthiness of an optional string: `None` and the empty string are
falsy. -/
def strTruthy : Option String → Bool
  | some s => s ≠ ""
  | none => false

/-- Lexicographic comparison of strings by Unicode code point, matching the
comparison Python's `sorted` uses on `str`. -/
def charListLe : List Char → List Char → Bool
  | [], _ => true
  | _ :: _, [] => false
  | c :: cs, d :: ds =>
    if c.toNat < d.toNat then true
    else if d.toNat < c.toNat then false
    else charListLe cs ds

/-- String comparison used for sorting. -/
def strLe (a b : String) : Bool := charListLe a.data b.data

/-- Insertion into a sorted list. -/
def insertSorted (x : String) : List String → List String
  | [] => [x]
  | y :: ys => if strLe x y then x :: y :: ys else y :: insertSorted x ys

/-- Model of Python's `sorted` on a list of strings. Python's sort is stable,
but equal strings are identical elements, so insertion sort produces the same
list. -/
def sortStrings (l : List String) : List String := l.foldr insertSorted []

/-- Test of `isinstance(val, (str, NamedSignalValue))` from list.py line 25:
the value is an enumeration-like value rather than a number. -/
def isEnumLike : PVal → Bool
  | .num _ => false
  | .str _ => true
  | .named _ => true

/-- Embedding of `_format_val` (list.py lines 12-29): `None` prints as
`'None'`; a value is rendered through the format specifier, and a unit is
appended (after one space) only when the unit is non-empty and the value is
not a string or named value. -/
def format_val (val : Option PVal) (unit : String) (render : PVal → String) : String :=
  match val with
  | none => "None"
  | some v =>
    if unit = "" ∨ isEnumLike v = true then
      render v
    else
      render v ++ " " ++ unit

/-- AUTOSAR end-to-end protection attributes printed by `_print_message`. -/
structure E2e where
  category : Option String
  data_ids : List Nat
  payload_length : Nat
deriving DecidableEq

/-- AUTOSAR secure-on-board-communication attributes printed by
`_print_message`. -/
structure Secoc where
  auth_algorithm_name : Option String
  freshness_algorithm_name : Option String
  data_id : Nat
  auth_tx_bit_length : Nat
  freshness_bit_length : Nat
  freshness_tx_bit_length : Nat
  payload_length : Nat
deriving DecidableEq

/-- AUTOSAR message attributes, present only on ARXML-derived messages. -/
structure Autosar where
  is_nm : Bool
  e2e : Option E2e
  is_secured : Bool
  secoc : Option Secoc
deriving DecidableEq

/-- Signal attributes read by list.py. -/
structure LSignal where
  name : String
  comments : Option (List (String × String))
  receivers : List String
  is_float : Bool
  is_multiplexer : Bool
  multiplexer_signal : Option String
  multiplexer_ids : Option (List Int)
  start : Nat
  length : Nat
  byte_order : String
  unit : Option String
  initial : Option PVal
  invalid : Option PVal
  is_signed : Option Bool
  minimum : Option PVal
  maximum : Option PVal
  offset : Option ℚ
  scale : Option ℚ
  choices : Option (List (Int × ChoiceVal))
deriving DecidableEq

/-- Reference to a contained message, as used by the contained-message listing
(name and mandatory header id). -/
structure Contained where
  name : Option String
  header_id : Nat
deriving DecidableEq

/-- Message attributes read by list.py. For container messages the inner
recursive `_print_message` calls on contained messages are represented by the
single structured item `Line.containedDetails` rather than expanded, since no
verified property concerns the recursive expansion. -/
structure LMessage where
  name : String
  comments : List (String × String)
  bus_name : Option String
  senders : List String
  header_id : Option Nat
  frame_id : Nat
  is_container : Bool
  length : Nat
  is_extended_frame : Bool
  is_fd : Bool
  cycle_time : Option ℚ
  autosar : Option Autosar
  signals : List LSignal
  contained_messages : Option (List Contained)
deriving DecidableEq

set_option maxHeartbeats 1600000 in
/-- Structured output items, one constructor per distinct print statement of
list.py. Constructors carry the data the corresponding statement prints;
where the statement prints the result of `_format_val`, the constructor
carries that already-formatted string. -/
inductive Line where
  | header (name : String)
  | comment (lang text : String)
  | bus (name : String)
  | sendingEcus (names : List String)
  | frameId (id : Nat)
  | maximumSize (n : Nat)
  | size (n : Nat)
  | isExtendedFrame (b : Bool)
  | isFdFrame (b : Bool)
  | headerId (id : Nat)
  | cycleTime (s : String)
  | isNmFrame (b : Bool)
  | e2eBlock (e : E2e)
  | isSecured (b : Bool)
  | secocBlock (sc : Secoc)
  | signalTreeHeader
  | signalTree
  | blank
  | containedHeader
  | containedRef (name : Option String) (hid : Nat)
  | containedDetailsHeader
  | containedDetails (ms : List Contained)
  | signalDetailsHeader
  | signalHeader (name : String)
  | signalComment (lang text : String)
  | receivingEcus (names : List String)
  | internalType (t : String)
  | selectorSignal (n : String)
  | selectorValues (vals : List String)
  | keyError (n : String)
  | startBit (n : Nat)
  | lengthBits (n : Nat)
  | byteOrderLine (s : String)
  | unitLine (s : String)
  | initialValue (s : String)
  | invalidValue (s : String)
  | isSigned (b : Bool)
  | minimumLine (s : String)
  | maximumLine (s : String)
  | offsetLine (s : String)
  | scalingFactor (s : String)
  | namedValuesHeader
  | namedValue (raw : Int) (label : String)
  | namedValueComment (lang text : String)
  | noMessageNamed (n : String)
  | plainName (n : String)
deriving DecidableEq

/-- Lines produced from an optional attribute: one block when present, nothing
when absent. -/
def optLines {α : Type} (o : Option α) (f : α → List Line) : List Line :=
  match o with
  | some v => f v
  | none => []

/-- Lines produced under a condition. -/
def condLines (b : Bool) (ls : List Line) : List Line :=
  if b then ls else []

@[simp] theorem mem_optLines {α : Type} (o : Option α) (f : α → List Line) (l : Line) :
    l ∈ optLines o f ↔ ∃ v, o = some v ∧ l ∈ f v := by
  cases o <;> simp [optLines]

@[simp] theorem mem_condLines (b : Bool) (ls : List Line) (l : Line) :
    l ∈ condLines b ls ↔ b = true ∧ l ∈ ls := by
  cases b <;> simp [condLines]

/-- Model of `Message.get_signal_by_name`.

Modelled from the spec: the implementation of this lookup lives in the
database layer, outside `src/`; §6 exposes it as "a `get_signal_by_name`
lookup on Message" and §9 prescribes an explicit name lookup with a
not-found failure on miss, modelled here as `none`. -/
def get_signal_by_name (msg : LMessage) (n : String) : Option LSignal :=
  msg.signals.find? (fun s => s.name == n)

/-- Model of `Database.get_message_by_name`.

Modelled from the spec: the implementation lives in the database layer,
outside `src/`; §9 prescribes an explicit name-to-message lookup with a
not-found failure on miss, modelled here as `none` (the source raises
`KeyError`, which `_do_list_messages` catches). -/
def get_message_by_name (db : List LMessage) (n : String) : Option LMessage :=
  db.find? (fun m => m.name == n)

/-- Label a choice value prints with (a `NamedSignalValue` prints as its
name). -/
def choice_label : ChoiceVal → String
  | .plain s => s
  | .namedVal label _ => label

/-- Comment lines printed under a named value in the `Named values:` block
(only `NamedSignalValue` entries have comments). -/
def choice_comments : ChoiceVal → List Line
  | .plain _ => []
  | .namedVal _ cs => cs.map (fun p => Line.namedValueComment p.1 p.2)

/-- Display of one selector raw value (list.py lines 141-146): the selector
signal's choice name when its choices contain the raw value, the plain
number otherwise. -/
def selector_display (sel : LSignal) (x : Int) : String :=
  match sel.choices with
  | some cs =>
    match cs.lookup x with
    | some c => choice_label c
    | none => toString x
  | none => toString x

/-- Strings joined into the `Selector values:` line; the loop body runs only
when `multiplexer_ids` is an actual list. -/
def selector_value_strings (sel : LSignal) : Option (List Int) → List String
  | some ids => ids.map (selector_display sel)
  | none => []

/-- Internal type string computed at list.py lines 119-126: `Float` for float
signals, `Multiplex Selector` for a multiplexer signal whose name occurs
among the `multiplexer_signal` references of the message's signals, and
`Integer` otherwise. -/
def signal_type_of (msg : LMessage) (s : LSignal) : String :=
  if s.is_float then "Float"
  else if s.is_multiplexer && msg.signals.any (fun x => x.multiplexer_signal == some s.name) then
    "Multiplex Selector"
  else "Integer"

/-- Unit string bound by the local variable `unit` of the signal loop
(empty unless the signal's unit is truthy). -/
def unit_of (s : LSignal) : String :=
  if strTruthy s.unit then s.unit.getD "" else ""

/-- Scaling threshold `1e-10` from list.py line 171, as an exact rational. -/
def scaleEps : ℚ := 1 / 10 ^ 10

/-- Condition `has_offset` of list.py line 168. -/
def has_offset (s : LSignal) : Bool :=
  match s.offset with
  | some o => o ≠ 0
  | none => false

/-- Condition `has_scale` of list.py lines 169-171. -/
def has_scale (s : LSignal) : Bool :=
  match s.scale with
  | some sc => decide (sc > 1 + scaleEps) || decide (sc < 1 - scaleEps)
  | none => false

/-- Selector-value line of list.py lines 137-148: resolve the selector signal
with `get_signal_by_name` (a miss raises `KeyError` in the source, the
`Line.keyError` marker here) and print one display string per entry of
`multiplexer_ids`. -/
def selector_block (msg : LMessage) (s : LSignal) (sn : String) : List Line :=
  match get_signal_by_name msg sn with
  | none => [Line.keyError sn]
  | some sel => [Line.selectorValues (selector_value_strings sel s.multiplexer_ids)]

/-- Lines printed for one signal by the loop of `_print_message`
(list.py lines 119-185). -/
def print_signal (msg : LMessage) (render : PVal → String) (s : LSignal) : List Line :=
  [Line.signalHeader s.name]
  ++ optLines s.comments (fun cs => cs.map (fun p => Line.signalComment p.1 p.2))
  ++ condLines (s.receivers ≠ []) [Line.receivingEcus (sortStrings s.receivers)]
  ++ [Line.internalType (signal_type_of msg s)]
  ++ optLines s.multiplexer_signal (fun sn => Line.selectorSignal sn :: selector_block msg s sn)
  ++ [Line.startBit s.start, Line.lengthBits s.length, Line.byteOrderLine s.byte_order]
  ++ condLines (strTruthy s.unit) [Line.unitLine (s.unit.getD "")]
  ++ optLines s.initial (fun v => [Line.initialValue (format_val (some v) (unit_of s) render)])
  ++ optLines s.invalid (fun v => [Line.invalidValue (format_val (some v) (unit_of s) render)])
  ++ optLines s.is_signed (fun b => [Line.isSigned b])
  ++ optLines s.minimum (fun v => [Line.minimumLine (format_val (some v) (unit_of s) render)])
  ++ optLines s.maximum (fun v => [Line.maximumLine (format_val (some v) (unit_of s) render)])
  ++ condLines (has_offset s || has_scale s)
      [Line.offsetLine (format_val (some (PVal.num (s.offset.getD 0))) (unit_of s) render),
       Line.scalingFactor (format_val (some (PVal.num (s.scale.getD 1))) (unit_of s) render)]
  ++ optLines s.choices (fun cs =>
      condLines (cs ≠ [])
        (Line.namedValuesHeader ::
         cs.flatMap (fun c => Line.namedValue c.1 (choice_label c.2) :: choice_comments c.2)))

/-- Lines of the AUTOSAR block (list.py lines 69-89). The four end-to-end
print statements are represented by the single structured item `e2eBlock`
carrying all printed fields, and the eight security print statements by
`secocBlock`; no verified property concerns these format-specific lines. -/
def autosar_lines (a : Autosar) : List Line :=
  [Line.isNmFrame a.is_nm]
  ++ optLines a.e2e (fun e => [Line.e2eBlock e])
  ++ [Line.isSecured a.is_secured]
  ++ optLines a.secoc (fun sc => [Line.secocBlock sc])

/-- Identifier and size lines of list.py lines 54-64: a frame id with a
`Maximum Size` line for containers and a `Size` line otherwise, or a header
id always followed by a `Size` line. -/
def id_size_block (msg : LMessage) : List Line :=
  match msg.header_id with
  | none =>
    [Line.frameId msg.frame_id]
    ++ (if msg.is_container then [Line.maximumSize msg.length] else [Line.size msg.length])
    ++ [Line.isExtendedFrame msg.is_extended_frame, Line.isFdFrame msg.is_fd]
  | some h => [Line.headerId h, Line.size msg.length]

/-- Embedding of `_print_message` (list.py lines 32-185), with
`print_format_specifics` as argument `pfs` and the format-specifier rendering
abstracted as `render`. -/
def print_message (msg : LMessage) (pfs : Bool) (render : PVal → String) : List Line :=
  [Line.header msg.name]
  ++ msg.comments.map (fun p => Line.comment p.1 p.2)
  ++ condLines (strTruthy msg.bus_name) [Line.bus (msg.bus_name.getD "")]
  ++ condLines (msg.senders ≠ []) [Line.sendingEcus (sortStrings msg.senders)]
  ++ id_size_block msg
  ++ optLines msg.cycle_time (fun ct => [Line.cycleTime (format_val (some (PVal.num ct)) "ms" render)])
  ++ condLines pfs (optLines msg.autosar autosar_lines)
  ++ condLines (msg.signals ≠ []) [Line.signalTreeHeader, Line.blank, Line.signalTree, Line.blank]
  ++ optLines msg.contained_messages (fun cms =>
      [Line.containedHeader, Line.blank]
      ++ cms.map (fun c => Line.containedRef c.name c.header_id)
      ++ [Line.blank, Line.containedDetailsHeader, Line.containedDetails cms])
  ++ condLines (msg.signals ≠ []) [Line.signalDetailsHeader]
  ++ msg.signals.flatMap (print_signal msg render)

/-- Arguments of the `list` subcommand consumed by `_do_list_messages`. -/
structure ListArgs where
  items : List String
  print_all : Bool
  exclude_extended : Bool
  exclude_normal : Bool
  skip_format_specifics : Bool
deriving DecidableEq

/-- Filter of list.py lines 266-269 and 279-282: skip extended frames when
excluded, skip normal frames when excluded. -/
def keep_message (args : ListArgs) (m : LMessage) : Bool :=
  !(m.is_extended_frame && args.exclude_extended) && !(!m.is_extended_frame && args.exclude_normal)

/-- Embedding of `_do_list_messages` (list.py lines 253-303) over a database
given as its ordered message list. With `print_all`, all kept message names
are appended to the requested ones and sorted; with no requested names the
kept names are printed sorted, one per line; otherwise each requested name
is looked up, a miss printing a not-found notice and the loop continuing. -/
def do_list_messages (db : List LMessage) (args : ListArgs) (render : PVal → String) : List Line :=
  let message_names :=
    if args.print_all then
      sortStrings (args.items ++ (db.filter (keep_message args)).map (fun m => m.name))
    else args.items
  if message_names = [] then
    (sortStrings ((db.filter (keep_message args)).map (fun m => m.name))).map Line.plainName
  else
    message_names.flatMap (fun n =>
      match get_message_by_name db n with
      | none => [Line.noMessageNamed n]
      | some m => print_message m (!args.skip_format_specifics) render)

@[simp] theorem mem_selector_block (msg : LMessage) (s : LSignal) (sn : String) (l : Line) :
    l ∈ selector_block msg s sn ↔
      (get_signal_by_name msg sn = none ∧ l = Line.keyError sn) ∨
      (∃ sel, get_signal_by_name msg sn = some sel ∧
        l = Line.selectorValues (selector_value_strings sel s.multiplexer_ids)) := by
  cases h : get_signal_by_name msg sn <;> simp [selector_block, h]

@[simp] theorem mem_choice_comments (cv : ChoiceVal) (l : Line) :
    l ∈ choice_comments cv ↔
      ∃ label cs, cv = ChoiceVal.namedVal label cs ∧
        ∃ p ∈ cs, l = Line.namedValueComment p.1 p.2 := by
  cases cv with
  | plain s => simp [choice_comments]
  | namedVal label cs =>
    simp only [choice_comments, List.mem_map]
    constructor
    · rintro ⟨p, hp, rfl⟩
      exact ⟨label, cs, rfl, p, hp, rfl⟩
    · rintro ⟨label2, cs2, heq, p, hp, rfl⟩
      cases heq
      exact ⟨p, hp, rfl⟩

theorem size_not_mem_print_signal (msg : LMessage) (render : PVal → String) (s : LSignal)
    (n : Nat) : Line.size n ∉ print_signal msg render s := by
  intro h
  simp [print_signal] at h

theorem maximumSize_not_mem_print_signal (msg : LMessage) (render : PVal → String)
    (s : LSignal) (n : Nat) : Line.maximumSize n ∉ print_signal msg render s := by
  intro h
  simp [print_signal] at h

theorem size_not_mem_autosar_lines (a : Autosar) (n : Nat) :
    Line.size n ∉ autosar_lines a := by
  intro h
  simp [autosar_lines] at h

theorem maximumSize_not_mem_autosar_lines (a : Autosar) (n : Nat) :
    Line.maximumSize n ∉ autosar_lines a := by
  intro h
  simp [autosar_lines] at h

/-- Claim C9: `_format_val` applied to `None` returns the string `'None'`,
for every unit string and every format specifier (the rendering function is
not applied). -/
theorem c9_format_val_none : ∀ (unit : String) (render : PVal → String),
    format_val none unit render = "None" := by
  intro unit render
  rfl

/-- Claim C6: for a non-`None` value, `_format_val` returns the rendered
value alone when the unit is empty or the value is enumeration-like (a string
or named value), and otherwise the rendered value, one space, and the unit;
the two variants are formatted by their own rule, never coerced. -/
theorem c6_format_val_unit : ∀ (v : PVal) (unit : String) (render : PVal → String),
    ((unit = "" ∨ isEnumLike v = true) → format_val (some v) unit render = render v) ∧
    (unit ≠ "" → isEnumLike v = false →
      format_val (some v) unit render = render v ++ " " ++ unit) := by
  intro v unit render
  constructor
  · intro h
    simp [format_val, h]
  · intro h1 h2
    simp [format_val, h1, h2]

/-- Witness for C6 at a concrete numeric value with a nonempty unit and a
concrete named value. -/
theorem c6_format_val_unit_witness :
    (("m" ≠ "" → isEnumLike (PVal.num 5) = false →
      format_val (some (PVal.num 5)) "m" (fun _ => "5") = "5" ++ " " ++ "m")) ∧
    (("m" = "" ∨ isEnumLike (PVal.named "On") = true) →
      format_val (some (PVal.named "On")) "m" (fun _ => "On") = "On") := by
  exact ⟨(c6_format_val_unit (PVal.num 5) "m" (fun _ => "5")).2,
         (c6_format_val_unit (PVal.named "On") "m" (fun _ => "On")).1⟩

/-- Claim C3: with `header_id` absent the length line is `Maximum Size` for
container messages and `Size` otherwise, and with a `header_id` present it is
always `Size`. -/
theorem c3_size_line : ∀ (msg : LMessage) (pfs : Bool) (render : PVal → String),
    (msg.header_id = none →
      (msg.is_container = true →
        Line.maximumSize msg.length ∈ print_message msg pfs render ∧
        ∀ n, Line.size n ∉ print_message msg pfs render) ∧
      (msg.is_container = false →
        Line.size msg.length ∈ print_message msg pfs render ∧
        ∀ n, Line.maximumSize n ∉ print_message msg pfs render)) ∧
    (∀ h, msg.header_id = some h →
      Line.size msg.length ∈ print_message msg pfs render ∧
      ∀ n, Line.maximumSize n ∉ print_message msg pfs render) := by
  intro msg pfs render
  constructor
  · intro hh
    constructor
    · intro hc
      constructor
      · simp [print_message, id_size_block, hh, hc]
      · intro n h
        simp [print_message, id_size_block, hh, hc,
          size_not_mem_print_signal, size_not_mem_autosar_lines] at h
    · intro hc
      constructor
      · simp [print_message, id_size_block, hh, hc]
      · intro n h
        simp [print_message, id_size_block, hh, hc,
          maximumSize_not_mem_print_signal, maximumSize_not_mem_autosar_lines] at h
  · intro hid hh
    constructor
    · simp [print_message, id_size_block, hh]
    · intro n h
      simp [print_message, id_size_block, hh,
        maximumSize_not_mem_print_signal, maximumSize_not_mem_autosar_lines] at h

/-- Rendering function used by the concrete witness inputs: format specifier
application is irrelevant to the verified structure, so it is the constant
empty string. -/
def render_default : PVal → String := fun _ => ""

/-- Signal with every optional attribute absent, used as a base for concrete
witness inputs. -/
def baseSignal : LSignal :=
  { name := "Sig", comments := none, receivers := [], is_float := false,
    is_multiplexer := false, multiplexer_signal := none, multiplexer_ids := none,
    start := 0, length := 8, byte_order := "little_endian", unit := none,
    initial := none, invalid := none, is_signed := none, minimum := none,
    maximum := none, offset := none, scale := none, choices := none }

/-- Message with every optional attribute absent, used as a base for concrete
witness inputs. -/
def baseMessage : LMessage :=
  { name := "Msg", comments := [], bus_name := none, senders := [],
    header_id := none, frame_id := 291, is_container := false, length := 8,
    is_extended_frame := false, is_fd := false, cycle_time := none,
    autosar := none, signals := [], contained_messages := none }

/-- Witness for C3: a concrete container message without a header id gets the
`Maximum Size` line and no `Size` line. -/
theorem c3_size_line_witness :
    Line.maximumSize 16 ∈
      print_message { baseMessage with is_container := true, length := 16 } true render_default ∧
    ∀ n, Line.size n ∉
      print_message { baseMessage with is_container := true, length := 16 } true render_default :=
  ((c3_size_line { baseMessage with is_container := true, length := 16 }
      true render_default).1 rfl).1 rfl

/-- Message with a single non-float signal that has `is_multiplexer` true but
is not referenced as any signal's `multiplexer_signal`. -/
def unreferencedMuxMessage : LMessage :=
  { baseMessage with signals := [{ baseSignal with name := "S", is_multiplexer := true }] }

/-- Counterexample to C5 as stated: a signal with `is_multiplexer` true whose
name is not referenced as any signal's `multiplexer_signal` is printed with
internal type `Integer`, not `Multiplex Selector`. -/
theorem c5_counterexample :
    (unreferencedMuxMessage.signals.map (fun s => (s.is_float, s.is_multiplexer))) =
      [(false, true)] ∧
    Line.internalType "Multiplex Selector" ∉
      print_message unreferencedMuxMessage true render_default ∧
    Line.internalType "Integer" ∈
      print_message unreferencedMuxMessage true render_default := by
  refine ⟨by decide, by decide, by decide⟩

/-- Internal-type string as a single conditional, in the terms of the amended
claim. -/
def internal_type_spec (msg : LMessage) (s : LSignal) : String :=
  if s.is_float = true then "Float"
  else if s.is_multiplexer = true ∧ ∃ x ∈ msg.signals, x.multiplexer_signal = some s.name then
    "Multiplex Selector"
  else "Integer"

theorem signal_type_of_eq_spec (msg : LMessage) (s : LSignal) :
    signal_type_of msg s = internal_type_spec msg s := by
  unfold signal_type_of internal_type_spec
  by_cases hf : s.is_float = true
  · simp [hf]
  · by_cases hb : s.is_multiplexer = true ∧ ∃ x ∈ msg.signals, x.multiplexer_signal = some s.name
    · have : (s.is_multiplexer && msg.signals.any
          (fun x => x.multiplexer_signal == some s.name)) = true := by
        simp [List.any_eq_true, hb.1]
        obtain ⟨x, hx, hmx⟩ := hb.2
        exact ⟨x, hx, hmx⟩
      simp [hf, this, hb]
    · have : (s.is_multiplexer && msg.signals.any
          (fun x => x.multiplexer_signal == some s.name)) = false := by
        rw [Bool.and_eq_false_iff]
        by_cases hm : s.is_multiplexer = true
        · right
          rw [List.any_eq_false]
          intro x hx
          simp only [beq_iff_eq]
          intro hmx
          exact hb ⟨hm, x, hx, hmx⟩
        · left
          simp at hm
          simp [hm]
      simp [hf, this, hb]

theorem internalType_mem_print_signal (msg : LMessage) (render : PVal → String)
    (s : LSignal) (t : String) :
    Line.internalType t ∈ print_signal msg render s ↔ t = signal_type_of msg s := by
  simp [print_signal]

/-- Claim C5, amended: the `Internal type` line of a signal is `Float` when
`is_float` holds, `Multiplex Selector` when the signal is not float, has
`is_multiplexer` true and its name occurs as some signal's
`multiplexer_signal` within the message, and `Integer` in every other case. -/
theorem c5_internal_type_amended :
    ∀ (msg : LMessage) (pfs : Bool) (render : PVal → String) (s : LSignal),
    s ∈ msg.signals →
    (∀ t, Line.internalType t ∈ print_signal msg render s ↔ t = internal_type_spec msg s) ∧
    Line.internalType (internal_type_spec msg s) ∈ print_message msg pfs render := by
  intro msg pfs render s hs
  constructor
  · intro t
    rw [internalType_mem_print_signal, signal_type_of_eq_spec]
  · have hmem : Line.internalType (internal_type_spec msg s) ∈ print_signal msg render s :=
      (internalType_mem_print_signal msg render s _).2 (signal_type_of_eq_spec msg s).symm
    simp only [print_message, List.mem_append]
    right
    exact List.mem_flatMap.2 ⟨s, hs, hmem⟩

/-- Witness for the amended C5 at a concrete message whose selector signal is
referenced by a multiplexed signal. -/
theorem c5_internal_type_amended_witness :
    (∀ t, Line.internalType t ∈
        print_signal { baseMessage with signals :=
          [{ baseSignal with name := "S", is_multiplexer := true },
           { baseSignal with name := "D", multiplexer_signal := some "S" }] } render_default
          { baseSignal with name := "S", is_multiplexer := true } ↔
      t = internal_type_spec { baseMessage with signals :=
          [{ baseSignal with name := "S", is_multiplexer := true },
           { baseSignal with name := "D", multiplexer_signal := some "S" }] }
          { baseSignal with name := "S", is_multiplexer := true }) ∧
    Line.internalType (internal_type_spec { baseMessage with signals :=
          [{ baseSignal with name := "S", is_multiplexer := true },
           { baseSignal with name := "D", multiplexer_signal := some "S" }] }
          { baseSignal with name := "S", is_multiplexer := true }) ∈
      print_message { baseMessage with signals :=
          [{ baseSignal with name := "S", is_multiplexer := true },
           { baseSignal with name := "D", multiplexer_signal := some "S" }] } true render_default :=
  c5_internal_type_amended _ true render_default _ (by decide)

/-- Claim C4: for a multiplexed signal, `_print_message` resolves the selector
via `get_signal_by_name` and prints one selector value per entry of
`multiplexer_ids`, substituting the selector's choice name whenever its
choices contain the raw value and the plain number otherwise. -/
theorem c4_selector_values :
    ∀ (msg : LMessage) (pfs : Bool) (render : PVal → String) (s : LSignal)
      (sn : String) (sel : LSignal) (ids : List Int),
    s ∈ msg.signals →
    s.multiplexer_signal = some sn →
    get_signal_by_name msg sn = some sel →
    s.multiplexer_ids = some ids →
    Line.selectorSignal sn ∈ print_message msg pfs render ∧
    Line.selectorValues (ids.map (selector_display sel)) ∈ print_message msg pfs render ∧
    (∀ x cs c, sel.choices = some cs → cs.lookup x = some c →
      selector_display sel x = choice_label c) ∧
    (∀ x, sel.choices.bind (fun cs => cs.lookup x) = none →
      selector_display sel x = toString x) := by
  intro msg pfs render s sn sel ids hs hmux hsel hids
  have h1 : Line.selectorSignal sn ∈ print_signal msg render s := by
    simp [print_signal, hmux]
  have h2 : Line.selectorValues (ids.map (selector_display sel)) ∈ print_signal msg render s := by
    simp [print_signal, hmux, hsel, selector_value_strings, hids]
  refine ⟨?_, ?_, ?_, ?_⟩
  · simp only [print_message, List.mem_append]
    right
    exact List.mem_flatMap.2 ⟨s, hs, h1⟩
  · simp only [print_message, List.mem_append]
    right
    exact List.mem_flatMap.2 ⟨s, hs, h2⟩
  · intro x cs c hcs hlook
    unfold selector_display
    rw [hcs]
    simp [hlook]
  · intro x hnone
    cases hcs : sel.choices with
    | none =>
      unfold selector_display
      rw [hcs]
    | some cs =>
      rw [hcs] at hnone
      have hl : cs.lookup x = none := by simpa using hnone
      unfold selector_display
      rw [hcs]
      simp [hl]

/-- Selector signal of `selectorMessage`. -/
def selectorSig : LSignal :=
  { baseSignal with
    name := "S"
    is_multiplexer := true
    choices := some [(0, ChoiceVal.plain "Off"), (1, ChoiceVal.plain "On")] }

/-- Multiplexed signal of `selectorMessage`. -/
def dependentSig : LSignal :=
  { baseSignal with
    name := "D"
    multiplexer_signal := some "S"
    multiplexer_ids := some [0, 2] }

/-- Message containing a choice-bearing selector signal `S` and a multiplexed
signal `D` whose ids partly hit those choices. -/
def selectorMessage : LMessage :=
  { baseMessage with signals := [selectorSig, dependentSig] }

/-- Witness for C4 at `selectorMessage`. -/
theorem c4_selector_values_witness :
    Line.selectorSignal "S" ∈ print_message selectorMessage true render_default ∧
    Line.selectorValues ([0, 2].map (selector_display selectorSig)) ∈
      print_message selectorMessage true render_default ∧
    (∀ x cs c, selectorSig.choices = some cs → cs.lookup x = some c →
      selector_display selectorSig x = choice_label c) ∧
    (∀ x, selectorSig.choices.bind (fun cs => cs.lookup x) = none →
      selector_display selectorSig x = toString x) :=
  c4_selector_values selectorMessage true render_default dependentSig "S" selectorSig [0, 2]
    (by simp [selectorMessage]) rfl rfl rfl

theorem offset_scale_cond (s : LSignal) :
    (has_offset s || has_scale s) = true ↔
      (∃ o, s.offset = some o ∧ o ≠ 0) ∨
      (∃ sc, s.scale = some sc ∧ scaleEps < |sc - 1|) := by
  rw [Bool.or_eq_true]
  apply or_congr
  · cases ho : s.offset with
    | none => simp [has_offset, ho]
    | some o => simp [has_offset, ho]
  · cases hsc : s.scale with
    | none => simp [has_scale, hsc]
    | some sc =>
      simp only [has_scale, hsc, Bool.or_eq_true, decide_eq_true_eq, Option.some.injEq,
        exists_eq_left']
      rw [lt_abs]
      constructor
      · rintro (h | h)
        · left; linarith
        · right; linarith
      · rintro (h | h)
        · left; linarith
        · right; linarith

/-- Claim C8: the `Offset` and `Scaling factor` lines of a signal are printed
precisely when the offset is set and nonzero or the scale differs from 1 by
more than `1e-10`; when printed, an absent offset displays as 0 and an absent
scale as 1. -/
theorem c8_offset_scaling :
    ∀ (msg : LMessage) (render : PVal → String) (s : LSignal),
    (((∃ o, s.offset = some o ∧ o ≠ 0) ∨
      (∃ sc, s.scale = some sc ∧ scaleEps < |sc - 1|)) →
      Line.offsetLine (format_val (some (PVal.num (s.offset.getD 0))) (unit_of s) render)
        ∈ print_signal msg render s ∧
      Line.scalingFactor (format_val (some (PVal.num (s.scale.getD 1))) (unit_of s) render)
        ∈ print_signal msg render s) ∧
    (¬((∃ o, s.offset = some o ∧ o ≠ 0) ∨
       (∃ sc, s.scale = some sc ∧ scaleEps < |sc - 1|)) →
      (∀ x, Line.offsetLine x ∉ print_signal msg render s) ∧
      (∀ x, Line.scalingFactor x ∉ print_signal msg render s)) := by
  intro msg render s
  constructor
  · intro h
    have hb : (has_offset s || has_scale s) = true := (offset_scale_cond s).2 h
    constructor <;> simp [print_signal, hb]
  · intro h
    have hb : (has_offset s || has_scale s) = false := by
      cases hcase : (has_offset s || has_scale s) with
      | false => rfl
      | true => exact absurd ((offset_scale_cond s).1 hcase) h
    constructor <;> intro x hx <;> simp [print_signal, hb] at hx

/-- Signal with a nonzero offset and no scale. -/
def offsetSignal : LSignal := { baseSignal with offset := some 5 }

/-- Witness for C8: the offset/scaling lines at a concrete signal whose offset
is 5 and scale is absent (displayed as 1). -/
theorem c8_offset_scaling_witness :
    Line.offsetLine (format_val (some (PVal.num (offsetSignal.offset.getD 0)))
        (unit_of offsetSignal) render_default)
      ∈ print_signal baseMessage render_default offsetSignal ∧
    Line.scalingFactor (format_val (some (PVal.num (offsetSignal.scale.getD 1)))
        (unit_of offsetSignal) render_default)
      ∈ print_signal baseMessage render_default offsetSignal :=
  (c8_offset_scaling baseMessage render_default offsetSignal).1
    (Or.inl ⟨5, rfl, by norm_num⟩)

theorem keep_message_eq_spec (args : ListArgs) (m : LMessage) :
    keep_message args m =
      decide (¬(m.is_extended_frame = true ∧ args.exclude_extended = true) ∧
              ¬(m.is_extended_frame = false ∧ args.exclude_normal = true)) := by
  cases hx : m.is_extended_frame <;> cases he : args.exclude_extended <;>
    cases hn : args.exclude_normal <;> simp [keep_message, hx, he, hn]

/-- Claim C7: with no requested names and `print_all` unset,
`_do_list_messages` prints exactly the names of the kept messages (extended
frames dropped under `exclude_extended`, normal frames under
`exclude_normal`), sorted, and no message details. -/
theorem c7_plain_name_listing :
    ∀ (db : List LMessage) (args : ListArgs) (render : PVal → String),
    args.print_all = false → args.items = [] →
    do_list_messages db args render =
      (sortStrings ((db.filter (fun m =>
        decide (¬(m.is_extended_frame = true ∧ args.exclude_extended = true) ∧
                ¬(m.is_extended_frame = false ∧ args.exclude_normal = true)))).map
        (fun m => m.name))).map Line.plainName ∧
    ∀ l ∈ do_list_messages db args render, ∃ n, l = Line.plainName n := by
  intro db args render hp hi
  have hfilter : db.filter (keep_message args) =
      db.filter (fun m =>
        decide (¬(m.is_extended_frame = true ∧ args.exclude_extended = true) ∧
                ¬(m.is_extended_frame = false ∧ args.exclude_normal = true))) := by
    apply List.filter_congr
    intro m _
    exact keep_message_eq_spec args m
  have heq : do_list_messages db args render =
      (sortStrings ((db.filter (keep_message args)).map (fun m => m.name))).map
        Line.plainName := by
    simp [do_list_messages, hp, hi]
  rw [hfilter] at heq
  refine ⟨heq, ?_⟩
  intro l hl
  rw [heq] at hl
  obtain ⟨n, _, rfl⟩ := List.mem_map.1 hl
  exact ⟨n, rfl⟩

/-- Database used by the C7 witness: one extended and two normal frames with
unsorted names. -/
def c7Db : List LMessage :=
  [{ baseMessage with name := "Beta" },
   { baseMessage with name := "Alpha", is_extended_frame := true },
   { baseMessage with name := "Gamma" }]

/-- Arguments used by the C7 witness: no items, extended frames excluded. -/
def c7Args : ListArgs :=
  { items := [], print_all := false, exclude_extended := true,
    exclude_normal := false, skip_format_specifics := false }

/-- Witness for C7 at a concrete database: the extended frame is omitted and
the remaining names appear sorted as plain-name lines. -/
theorem c7_plain_name_listing_witness :
    do_list_messages c7Db c7Args render_default =
      (sortStrings ((c7Db.filter (fun m =>
        decide (¬(m.is_extended_frame = true ∧ c7Args.exclude_extended = true) ∧
                ¬(m.is_extended_frame = false ∧ c7Args.exclude_normal = true)))).map
        (fun m => m.name))).map Line.plainName ∧
    ∀ l ∈ do_list_messages c7Db c7Args render_default, ∃ n, l = Line.plainName n :=
  c7_plain_name_listing c7Db c7Args render_default rfl rfl

/-- Claim C2: when a requested message name is missing from the database,
`_do_list_messages` prints a not-found notice naming it and continues: the
output is exactly the per-name concatenation, every requested name that
resolves still has its full details printed, and the miss aborts nothing. -/
theorem c2_missing_message_continues :
    ∀ (db : List LMessage) (args : ListArgs) (render : PVal → String) (m : String),
    args.print_all = false → args.items ≠ [] → m ∈ args.items →
    get_message_by_name db m = none →
    (do_list_messages db args render =
      args.items.flatMap (fun n =>
        match get_message_by_name db n with
        | none => [Line.noMessageNamed n]
        | some msg => print_message msg (!args.skip_format_specifics) render)) ∧
    Line.noMessageNamed m ∈ do_list_messages db args render ∧
    (∀ n msg, n ∈ args.items → get_message_by_name db n = some msg →
      ∀ l ∈ print_message msg (!args.skip_format_specifics) render,
        l ∈ do_list_messages db args render) := by
  intro db args render m hp hne hm hnone
  have heq : do_list_messages db args render =
      args.items.flatMap (fun n =>
        match get_message_by_name db n with
        | none => [Line.noMessageNamed n]
        | some msg => print_message msg (!args.skip_format_specifics) render) := by
    simp [do_list_messages, hp, hne]
  refine ⟨heq, ?_, ?_⟩
  · rw [heq]
    refine List.mem_flatMap.2 ⟨m, hm, ?_⟩
    rw [hnone]
    simp
  · intro n msg hn hsome l hl
    rw [heq]
    refine List.mem_flatMap.2 ⟨n, hn, ?_⟩
    rw [hsome]
    exact hl

/-- Arguments used by the C2 witness: two requested names, one of which is
absent from the database. -/
def c2Args : ListArgs :=
  { items := ["Msg", "Ghost"], print_all := false, exclude_extended := false,
    exclude_normal := false, skip_format_specifics := false }

/-- Witness for C2 at a concrete database: requesting an existing and a
missing message prints the not-found notice for the missing one while the
existing one keeps its details. -/
theorem c2_missing_message_continues_witness :
    (do_list_messages [baseMessage] c2Args render_default =
      c2Args.items.flatMap (fun n =>
        match get_message_by_name [baseMessage] n with
        | none => [Line.noMessageNamed n]
        | some msg => print_message msg (!c2Args.skip_format_specifics) render_default)) ∧
    Line.noMessageNamed "Ghost" ∈ do_list_messages [baseMessage] c2Args render_default ∧
    (∀ n msg, n ∈ c2Args.items → get_message_by_name [baseMessage] n = some msg →
      ∀ l ∈ print_message msg (!c2Args.skip_format_specifics) render_default,
        l ∈ do_list_messages [baseMessage] c2Args render_default) :=
  c2_missing_message_continues [baseMessage] c2Args render_default "Ghost"
    rfl (by decide) (by decide) rfl

/-!
Codec model for the round-trip property (claim C1).

Modelled from the spec: the BitView / SignalCodec / MultiplexResolver /
MessageCodec implementation is not under `src/`, so the definitions below
follow sections 4.1 to 4.4 and section 3 of the spec. Extended (nested)
multiplexing is modelled as section 9 prescribes: every signal carries an
ordered sequence of (selector-signal name, accepted raw values) constraints,
the single-level case being a sequence of length one and an unconditional
signal the empty sequence; a dependent signal is present only when every
constraint of its chain holds simultaneously (section 4.3 step 2), while
selector signals themselves are always present (section 4.3 step 1). Float
signals are carried abstractly: the IEEE reinterpretation of a 32/64 bit
pattern is not statable in an exact-rational embedding, so a float signal's
physical value is represented by its raw bit pattern (`SigValue.floatBits`);
the spec encodes a float value as its literal IEEE pattern, so the model's
float round-trip is exact at the pattern level, within the claimed
floating-point tolerance. Remaining restrictions: `minimum`/`maximum` bounds
checking and the `invalid` sentinel are not modelled since the round-trip
claim quantifies over encodable value mappings; payloads are total bit
assignments, leaving out the `RangeError` buffer check.
-/

/-- Byte-order convention of a signal (spec 4.1). -/
inductive ByteOrder where
  | little_endian
  | big_endian
deriving DecidableEq

/-- Modelled from the spec: signal attributes consumed by the codec
(spec section 3). `multiplexer_chain` is the ordered sequence of
(selector-signal name, accepted raw values) constraints of sections 3 and 9:
`[]` for an unconditional signal, the single entry
`(multiplexer_signal, multiplexer_ids)` for single-level multiplexing, and
one entry per nesting level for extended multiplexing. -/
structure CodecSignal where
  name : String
  start : Nat
  length : Nat
  byte_order : ByteOrder
  is_signed : Bool
  is_float : Bool
  scale : ℚ
  offset : ℚ
  choices : List (Nat × String)
  is_multiplexer : Bool
  multiplexer_chain : List (String × List Nat)
deriving DecidableEq

/-- Modelled from the spec: message attributes consumed by the codec. -/
structure CodecMessage where
  name : String
  length : Nat
  signals : List CodecSignal
deriving DecidableEq

/-- Typed physical value produced by decoding: a number, a named choice
(spec 4.2 and the tagged-variant design note of spec 9), or — for float
signals — the IEEE bit pattern of the value, left uninterpreted since IEEE
arithmetic is outside the embedding. -/
inductive SigValue where
  | num (q : ℚ)
  | named (label : String)
  | floatBits (pattern : Nat)
deriving DecidableEq

/-- Next absolute bit position in big-endian ("Motorola") traversal order
(spec 4.1): the bit index inside the byte decreases until the byte boundary,
then wraps to bit 7 of the next byte. An absolute position `p` addresses bit
`p % 8` (of weight `2 ^ (p % 8)`) of byte `p / 8`. -/
def bigEndianStep (p : Nat) : Nat :=
  if p % 8 = 0 then p + 15 else p - 1

/-- Absolute bit positions of a big-endian field in traversal order
(most-significant bit first), starting at `start`. -/
def bigEndianTraversal (start : Nat) : Nat → List Nat
  | 0 => []
  | n + 1 => start :: bigEndianTraversal (bigEndianStep start) n

/-- Modelled from the spec (4.1): absolute bit positions of a signal's field,
listed least-significant raw bit first. Little-endian fields occupy
`start, start+1, ...` with the least-significant bit at `start`; big-endian
fields are the most-significant-first traversal reversed. -/
def bitPositions (s : CodecSignal) : List Nat :=
  match s.byte_order with
  | .little_endian => (List.range s.length).map (fun k => s.start + k)
  | .big_endian => (bigEndianTraversal s.start s.length).reverse

/-- Modelled from the spec (4.1 `insert`): write the low bits of `raw` into
the payload at the addressed positions, bit `k` of `raw` going to position
`ps[k]`. The payload is a total assignment of bits. -/
def insertBits (ps : List Nat) (raw : Nat) (pl : Nat → Bool) : Nat → Bool :=
  fun p => if p ∈ ps then raw.testBit (ps.indexOf p) else pl p

/-- Modelled from the spec (4.1 `extract`): read an unsigned integer whose
bit `k` is the payload bit at position `ps[k]`. -/
def extractBits : List Nat → (Nat → Bool) → Nat
  | [], _ => 0
  | p :: ps, pl => (if pl p then 1 else 0) + 2 * extractBits ps pl

/-- Modelled from the spec (4.2 step 1): reinterpret a `len`-bit raw value as
two's-complement signed. -/
def toSigned (len raw : Nat) : Int :=
  if raw < 2 ^ (len - 1) then (raw : Int) else (raw : Int) - 2 ^ len

/-- Modelled from the spec (4.2 `decode_raw`, steps 1-3, 5, 6): a raw value
listed in `choices` decodes to the named choice (choices take precedence
over scaling); a float signal's pattern is reinterpreted as IEEE, kept
abstract here as `floatBits`; otherwise the optionally sign-reinterpreted
value is scaled by `physical = raw * scale + offset`. -/
def decodeRaw (s : CodecSignal) (raw : Nat) : SigValue :=
  match s.choices.find? (fun c => c.1 == raw) with
  | some c => .named c.2
  | none =>
    if s.is_float then .floatBits raw
    else if s.is_signed then .num ((toSigned s.length raw : ℚ) * s.scale + s.offset)
    else .num ((raw : ℚ) * s.scale + s.offset)

/-- Modelled from the spec (4.2 `encode_physical`): a value matching a choice
name encodes as the corresponding key; a float value encodes as its literal
IEEE bit pattern; a numeric value encodes as
`round((value - offset) / scale)`, two's-complement packed; each result is
masked to `length` bits. A named value matching no choice, a float value for
a non-float signal and a numeric value for a float signal fail
(`EncodeError`). -/
def encodePhysical (s : CodecSignal) (v : SigValue) : Option Nat :=
  match v with
  | .named label => (s.choices.find? (fun c => c.2 == label)).map (fun c => c.1 % 2 ^ s.length)
  | .floatBits p => if s.is_float then some (p % 2 ^ s.length) else none
  | .num q =>
    if s.is_float then none
    else some ((round ((q - s.offset) / s.scale) % ((2 : Int) ^ s.length)).toNat)

/-- Modelled from the spec (4.3 steps 1-3): a signal is present in the frame
instance described by the supplied values when it is a selector
(`is_multiplexer`, always present) or every (selector, accepted values)
constraint of its chain holds simultaneously: the raw encoding of the
supplied value of that selector is one of the accepted values. An
unconditional signal has the empty chain and is always present. -/
def signalSelected (msg : CodecMessage) (V : String → Option SigValue) (s : CodecSignal) : Bool :=
  if s.is_multiplexer then true
  else s.multiplexer_chain.all (fun c =>
    match msg.signals.find? (fun t => t.name == c.1), V c.1 with
    | some sel, some v =>
      match encodePhysical sel v with
      | some raw => raw ∈ c.2
      | none => false
    | _, _ => false)

/-- Modelled from the spec (4.4 `encode`): insert every selected signal's
encoded raw value into the zero-initialized payload; a missing or
unencodable value for a selected signal fails, values for unselected
signals are ignored. -/
def encodeSignals (msg : CodecMessage) (V : String → Option SigValue) :
    List CodecSignal → (Nat → Bool) → Option (Nat → Bool)
  | [], pl => some pl
  | s :: rest, pl =>
    if signalSelected msg V s then
      match V s.name with
      | some v =>
        match encodePhysical s v with
        | some raw => encodeSignals msg V rest (insertBits (bitPositions s) raw pl)
        | none => none
      | none => none
    else encodeSignals msg V rest pl

/-- Modelled from the spec (4.4): encode a value mapping into a payload,
starting from the zero-initialized buffer. -/
def encodeMessage (msg : CodecMessage) (V : String → Option SigValue) : Option (Nat → Bool) :=
  encodeSignals msg V msg.signals (fun _ => false)

/-- Modelled from the spec (4.3 steps 1-2, decode side): selectors are always
decoded (their bit ranges never depend on other selectors); a dependent
signal is present when, for every constraint of its chain, the raw value
extracted for that selector is one of the accepted values — the full
constraint chain must hold simultaneously. -/
def decodeSelected (msg : CodecMessage) (pl : Nat → Bool) (s : CodecSignal) : Bool :=
  if s.is_multiplexer then true
  else s.multiplexer_chain.all (fun c =>
    match msg.signals.find? (fun t => t.name == c.1) with
    | some sel => extractBits (bitPositions sel) pl ∈ c.2
    | none => false)

/-- Modelled from the spec (4.4 `decode`): the decoded mapping gives, for
each signal name whose signal is present in this frame instance, the decoded
physical value of its extracted raw bits; other names map to nothing. -/
def decodeMessage (msg : CodecMessage) (pl : Nat → Bool) : String → Option SigValue :=
  fun name =>
    match msg.signals.find? (fun t => t.name == name) with
    | some s =>
      if decodeSelected msg pl s then some (decodeRaw s (extractBits (bitPositions s) pl))
      else none
    | none => none

/-- Structural well-formedness of one signal assumed from the format parsers
(spec 6): nonzero width, nonzero scale, and choice keys unique and within
the field width. -/
def WFSignal (s : CodecSignal) : Prop :=
  1 ≤ s.length ∧ s.scale ≠ 0 ∧ (s.choices.map Prod.fst).Nodup ∧
    ∀ c ∈ s.choices, c.1 < 2 ^ s.length

theorem extractBits_congr (ps : List Nat) (f g : Nat → Bool)
    (h : ∀ p ∈ ps, f p = g p) : extractBits ps f = extractBits ps g := by
  induction ps with
  | nil => rfl
  | cons p ps ih =>
    rw [extractBits, extractBits, h p (List.mem_cons_self p ps),
      ih (fun q hq => h q (List.mem_cons_of_mem p hq))]

theorem mod_two_pow_succ (raw n : Nat) :
    raw % 2 ^ (n + 1) = raw % 2 + 2 * (raw / 2 % 2 ^ n) := by
  rw [pow_succ, mul_comm (2 ^ n) 2]
  exact Nat.mod_mul

theorem extractBits_insertBits (ps : List Nat) (raw : Nat) (pl : Nat → Bool)
    (h : ps.Nodup) : extractBits ps (insertBits ps raw pl) = raw % 2 ^ ps.length := by
  induction ps generalizing raw pl with
  | nil => simp [extractBits, Nat.mod_one]
  | cons p ps ih =>
    rw [List.nodup_cons] at h
    obtain ⟨hp, hps⟩ := h
    have hhead : insertBits (p :: ps) raw pl p = raw.testBit 0 := by
      simp [insertBits, List.indexOf_cons_self]
    have htail : ∀ q ∈ ps, insertBits (p :: ps) raw pl q = insertBits ps (raw / 2) pl q := by
      intro q hq
      have hqp : q ≠ p := fun e => hp (e ▸ hq)
      simp only [insertBits]
      rw [if_pos (List.mem_cons_of_mem p hq), if_pos hq,
        List.indexOf_cons_ne _ (Ne.symm hqp), Nat.testBit_succ]
    calc extractBits (p :: ps) (insertBits (p :: ps) raw pl)
        = (if raw.testBit 0 then 1 else 0) +
            2 * extractBits ps (insertBits (p :: ps) raw pl) := by
          rw [extractBits, hhead]
      _ = (if raw.testBit 0 then 1 else 0) +
            2 * extractBits ps (insertBits ps (raw / 2) pl) := by
          rw [extractBits_congr ps _ _ htail]
      _ = raw % 2 + 2 * (raw / 2 % 2 ^ ps.length) := by
          rw [ih (raw / 2) pl hps, Nat.testBit_zero]
          congr 1
          rcases Nat.mod_two_eq_zero_or_one raw with h2 | h2 <;> simp [h2]
      _ = raw % 2 ^ (ps.length + 1) := (mod_two_pow_succ raw ps.length).symm

theorem extractBits_insertBits_of_disjoint (ps qs : List Nat) (raw : Nat)
    (pl : Nat → Bool) (h : ∀ p ∈ ps, p ∉ qs) :
    extractBits ps (insertBits qs raw pl) = extractBits ps pl := by
  apply extractBits_congr
  intro p hp
  simp [insertBits, h p hp]

theorem bigEndianTraversal_length (start n : Nat) :
    (bigEndianTraversal start n).length = n := by
  induction n generalizing start with
  | zero => rfl
  | succ n ih =>
    rw [bigEndianTraversal]
    simp [ih]

theorem bitPositions_length (s : CodecSignal) : (bitPositions s).length = s.length := by
  cases h : s.byte_order <;> simp [bitPositions, h, bigEndianTraversal_length]

theorem encodePhysical_lt (s : CodecSignal) (v : SigValue) (r : Nat)
    (h : encodePhysical s v = some r) : r < 2 ^ s.length := by
  have hpow : 0 < 2 ^ s.length := Nat.pos_pow_of_pos s.length (by omega)
  cases v with
  | named label =>
    rw [encodePhysical] at h
    cases hv : s.choices.find? (fun c => c.2 == label) with
    | none =>
      rw [hv] at h
      simp at h
    | some c =>
      rw [hv] at h
      simp only [Option.map_some', Option.some.injEq] at h
      rw [← h]
      exact Nat.mod_lt _ hpow
  | floatBits p =>
    rw [encodePhysical] at h
    by_cases hfl : s.is_float = true
    · rw [if_pos hfl, Option.some.injEq] at h
      rw [← h]
      exact Nat.mod_lt _ hpow
    · rw [if_neg hfl] at h
      cases h
  | num q =>
    rw [encodePhysical] at h
    by_cases hfl : s.is_float = true
    · rw [if_pos hfl] at h
      cases h
    · rw [if_neg hfl, Option.some.injEq] at h
      rw [← h]
      have hpos : (0 : Int) < 2 ^ s.length := by positivity
      have hlt := Int.emod_lt_of_pos (round ((q - s.offset) / s.scale)) hpos
      have hge : (0 : Int) ≤ round ((q - s.offset) / s.scale) % ((2 : Int) ^ s.length) :=
        Int.emod_nonneg _ (by positivity)
      have hcast : ((2 : Int) ^ s.length) = ((2 ^ s.length : Nat) : Int) := by push_cast; ring
      rw [hcast] at hlt
      omega

theorem toSigned_emod (len raw : Nat) (h : raw < 2 ^ len) :
    toSigned len raw % ((2 : Int) ^ len) = (raw : Int) := by
  have hcast : (raw : Int) < 2 ^ len := by exact_mod_cast h
  unfold toSigned
  by_cases hc : raw < 2 ^ (len - 1)
  · rw [if_pos hc]
    exact Int.emod_eq_of_lt (by positivity) hcast
  · rw [if_neg hc]
    have hrw : (raw : Int) - 2 ^ len = (raw : Int) + 2 ^ len * (-1) := by ring
    rw [hrw, Int.add_mul_emod_self_left]
    exact Int.emod_eq_of_lt (by positivity) hcast

theorem encode_decode_signal (s : CodecSignal) (hwf : WFSignal s) (raw : Nat)
    (hraw : raw < 2 ^ s.length) :
    ∃ r2, encodePhysical s (decodeRaw s raw) = some r2 ∧ r2 < 2 ^ s.length ∧
      decodeRaw s r2 = decodeRaw s raw := by
  obtain ⟨hlen, hscale, hkeys, hbound⟩ := hwf
  cases hfind : s.choices.find? (fun c => c.1 == raw) with
  | some c =>
    have hdec : decodeRaw s raw = .named c.2 := by rw [decodeRaw, hfind]
    have hc_mem : c ∈ s.choices := List.mem_of_find?_eq_some hfind
    have hexists : ∃ x ∈ s.choices, (fun d => d.2 == c.2) x = true := ⟨c, hc_mem, by simp⟩
    obtain ⟨c2, hval⟩ := Option.isSome_iff_exists.1 (List.find?_isSome.2 hexists)
    have hc2_mem : c2 ∈ s.choices := List.mem_of_find?_eq_some hval
    have hc2_lab : c2.2 = c.2 := by simpa using List.find?_some hval
    have hc2_lt : c2.1 < 2 ^ s.length := hbound c2 hc2_mem
    refine ⟨c2.1 % 2 ^ s.length, ?_, ?_, ?_⟩
    · simp [hdec, encodePhysical, hval]
    · exact Nat.mod_lt _ (Nat.pos_pow_of_pos s.length (by omega))
    · rw [Nat.mod_eq_of_lt hc2_lt, hdec]
      have hex2 : ∃ x ∈ s.choices, (fun d => d.1 == c2.1) x = true := ⟨c2, hc2_mem, by simp⟩
      obtain ⟨c3, hfind3⟩ := Option.isSome_iff_exists.1 (List.find?_isSome.2 hex2)
      have hc3_mem : c3 ∈ s.choices := List.mem_of_find?_eq_some hfind3
      have hc3_key : c3.1 = c2.1 := by simpa using List.find?_some hfind3
      have hc3_eq : c3 = c2 := List.inj_on_of_nodup_map hkeys hc3_mem hc2_mem hc3_key
      have hdec3 : decodeRaw s c2.1 = SigValue.named c3.2 := by rw [decodeRaw, hfind3]
      rw [hdec3, hc3_eq, hc2_lab]
  | none =>
    refine ⟨raw, ?_, hraw, rfl⟩
    have hemod : ∀ x : Int, x % ((2 : Int) ^ s.length) = (raw : Int) →
        ((x % ((2 : Int) ^ s.length)).toNat : Nat) = raw := by
      intro x hx
      rw [hx]
      exact Int.toNat_natCast raw
    by_cases hfl : s.is_float = true
    · have hdec : decodeRaw s raw = .floatBits raw := by
        rw [decodeRaw, hfind, if_pos hfl]
      rw [hdec, encodePhysical, if_pos hfl, Nat.mod_eq_of_lt hraw]
    · by_cases hsg : s.is_signed = true
      · have hdec : decodeRaw s raw =
            .num ((toSigned s.length raw : ℚ) * s.scale + s.offset) := by
          rw [decodeRaw, hfind, if_neg hfl, if_pos hsg]
        rw [hdec, encodePhysical, if_neg hfl]
        have harith : ((toSigned s.length raw : ℚ) * s.scale + s.offset - s.offset) / s.scale
            = ((toSigned s.length raw : Int) : ℚ) := by
          field_simp
        rw [harith, round_intCast]
        rw [Option.some.injEq]
        exact hemod _ (toSigned_emod s.length raw hraw)
      · have hdec : decodeRaw s raw = .num ((raw : ℚ) * s.scale + s.offset) := by
          rw [decodeRaw, hfind, if_neg hfl, if_neg hsg]
        rw [hdec, encodePhysical, if_neg hfl]
        have harith : ((raw : ℚ) * s.scale + s.offset - s.offset) / s.scale
            = (((raw : Int) : ℚ)) := by
          push_cast
          field_simp
        rw [harith, round_intCast]
        rw [Option.some.injEq]
        apply hemod
        exact Int.emod_eq_of_lt (by positivity) (by exact_mod_cast hraw)

theorem find?_name_eq_of_nodup (sigs : List CodecSignal)
    (hnames : (sigs.map CodecSignal.name).Nodup) (s : CodecSignal) (hs : s ∈ sigs) :
    sigs.find? (fun t => t.name == s.name) = some s := by
  have hpred : (fun t : CodecSignal => t.name == s.name) s = true := by simp
  have hsome : (sigs.find? (fun t => t.name == s.name)).isSome = true :=
    List.find?_isSome.2 ⟨s, hs, hpred⟩
  obtain ⟨t, ht⟩ := Option.isSome_iff_exists.1 hsome
  have htm : t ∈ sigs := List.mem_of_find?_eq_some ht
  have htn : t.name = s.name := by simpa using List.find?_some ht
  rw [ht]
  exact congrArg some (List.inj_on_of_nodup_map hnames htm hs htn)

theorem encodeSignals_isSome (msg : CodecMessage) (V : String → Option SigValue)
    (l : List CodecSignal) (pl : Nat → Bool)
    (hok : ∀ s ∈ l, signalSelected msg V s = true →
      ∃ v r, V s.name = some v ∧ encodePhysical s v = some r) :
    ∃ pl2, encodeSignals msg V l pl = some pl2 := by
  induction l generalizing pl with
  | nil => exact ⟨pl, rfl⟩
  | cons s rest ih =>
    by_cases hsel : signalSelected msg V s = true
    · obtain ⟨v, r, hv, hr⟩ := hok s (List.mem_cons_self s rest) hsel
      simp only [encodeSignals, if_pos hsel, hv, hr]
      exact ih _ (fun t ht hts => hok t (List.mem_cons_of_mem s ht) hts)
    · rw [encodeSignals, if_neg hsel]
      exact ih _ (fun t ht hts => hok t (List.mem_cons_of_mem s ht) hts)

theorem encodeSignals_untouched (msg : CodecMessage) (V : String → Option SigValue)
    (l : List CodecSignal) (ps : List Nat) :
    ∀ (pl pl2 : Nat → Bool),
    encodeSignals msg V l pl = some pl2 →
    (∀ t ∈ l, signalSelected msg V t = true → ∀ p ∈ ps, p ∉ bitPositions t) →
    extractBits ps pl2 = extractBits ps pl := by
  induction l with
  | nil =>
    intro pl pl2 henc _
    rw [encodeSignals] at henc
    rw [Option.some.injEq] at henc
    rw [← henc]
  | cons s rest ih =>
    intro pl pl2 henc h
    by_cases hsel : signalSelected msg V s = true
    · cases hv : V s.name with
      | none =>
        simp only [encodeSignals, if_pos hsel, hv] at henc
        cases henc
      | some v =>
        cases hr : encodePhysical s v with
        | none =>
          simp only [encodeSignals, if_pos hsel, hv, hr] at henc
          cases henc
        | some r =>
          simp only [encodeSignals, if_pos hsel, hv, hr] at henc
          have hrest := ih _ _ henc
            (fun t ht hts => h t (List.mem_cons_of_mem s ht) hts)
          rw [hrest]
          exact extractBits_insertBits_of_disjoint ps _ r pl
            (fun p hp => h s (List.mem_cons_self s rest) hsel p hp)
    · rw [encodeSignals, if_neg hsel] at henc
      exact ih _ _ henc (fun t ht hts => h t (List.mem_cons_of_mem s ht) hts)

theorem encodeSignals_extract (msg : CodecMessage) (V : String → Option SigValue)
    (s : CodecSignal) (v : SigValue) (r : Nat)
    (hsel : signalSelected msg V s = true)
    (hv : V s.name = some v) (hr : encodePhysical s v = some r)
    (hnodup : (bitPositions s).Nodup) :
    ∀ (l : List CodecSignal) (pl pl2 : Nat → Bool),
    s ∈ l →
    (l.map CodecSignal.name).Nodup →
    (∀ t ∈ l, t.name ≠ s.name → signalSelected msg V t = true →
      ∀ p ∈ bitPositions s, p ∉ bitPositions t) →
    encodeSignals msg V l pl = some pl2 →
    extractBits (bitPositions s) pl2 = r % 2 ^ (bitPositions s).length := by
  intro l
  induction l with
  | nil =>
    intro pl pl2 hs
    cases hs
  | cons t rest ih =>
    intro pl pl2 hs hnames hd henc
    rw [List.map_cons, List.nodup_cons] at hnames
    rcases List.mem_cons.1 hs with rfl | hs2
    · simp only [encodeSignals, if_pos hsel, hv, hr] at henc
      have huntouched : extractBits (bitPositions s) pl2 =
          extractBits (bitPositions s) (insertBits (bitPositions s) r pl) := by
        apply encodeSignals_untouched msg V rest (bitPositions s) _ _ henc
        intro t2 ht2 hsel2 p hp
        have hneq : t2.name ≠ s.name := by
          intro he
          exact hnames.1 (he ▸ List.mem_map_of_mem CodecSignal.name ht2)
        exact hd t2 (List.mem_cons_of_mem _ ht2) hneq hsel2 p hp
      rw [huntouched, extractBits_insertBits _ _ _ hnodup]
    · have hstep : ∃ pl3, encodeSignals msg V rest pl3 = some pl2 := by
        by_cases hselt : signalSelected msg V t = true
        · cases hvt : V t.name with
          | none =>
            simp only [encodeSignals, if_pos hselt, hvt] at henc
            cases henc
          | some vt =>
            cases hrt : encodePhysical t vt with
            | none =>
              simp only [encodeSignals, if_pos hselt, hvt, hrt] at henc
              cases henc
            | some rt =>
              simp only [encodeSignals, if_pos hselt, hvt, hrt] at henc
              exact ⟨_, henc⟩
        · rw [encodeSignals, if_neg hselt] at henc
          exact ⟨pl, henc⟩
      obtain ⟨pl3, henc3⟩ := hstep
      exact ih _ _ hs2 hnames.2
        (fun t2 ht2 hneq hsel2 => hd t2 (List.mem_cons_of_mem _ ht2) hneq hsel2) henc3

theorem encodeMessage_extract (msg : CodecMessage) (V : String → Option SigValue)
    (pl : Nat → Bool) (s : CodecSignal) (v : SigValue) (r : Nat)
    (hnames : (msg.signals.map CodecSignal.name).Nodup)
    (hnodup : (bitPositions s).Nodup)
    (hd : ∀ t ∈ msg.signals, t.name ≠ s.name → signalSelected msg V t = true →
      ∀ p ∈ bitPositions s, p ∉ bitPositions t)
    (hs : s ∈ msg.signals) (hsel : signalSelected msg V s = true)
    (hv : V s.name = some v) (hr : encodePhysical s v = some r)
    (hpl : encodeMessage msg V = some pl) :
    extractBits (bitPositions s) pl = r := by
  have h := encodeSignals_extract msg V s v r hsel hv hr hnodup
    msg.signals _ pl hs hnames hd hpl
  rw [h, bitPositions_length, Nat.mod_eq_of_lt (encodePhysical_lt s v r hr)]

theorem signalSelected_of_multiplexer (msg : CodecMessage) (V : String → Option SigValue)
    (sel : CodecSignal) (h : sel.is_multiplexer = true) :
    signalSelected msg V sel = true := by
  simp [signalSelected, h]

theorem selected_encodes (msg : CodecMessage) (V : String → Option SigValue)
    (hwf : ∀ s ∈ msg.signals, WFSignal s)
    (hdom : ∀ name, (V name).isSome = true ↔
      ∃ s ∈ msg.signals, s.name = name ∧ signalSelected msg V s = true)
    (hval : ∀ s ∈ msg.signals, ∀ v, V s.name = some v →
      ∃ raw, raw < 2 ^ s.length ∧ decodeRaw s raw = v)
    (s : CodecSignal) (hs : s ∈ msg.signals) (hsel : signalSelected msg V s = true) :
    ∃ v r, V s.name = some v ∧ encodePhysical s v = some r ∧ decodeRaw s r = v := by
  have hsome : (V s.name).isSome = true := (hdom s.name).2 ⟨s, hs, rfl, hsel⟩
  obtain ⟨v, hv⟩ := Option.isSome_iff_exists.1 hsome
  obtain ⟨raw, hlt, hdec⟩ := hval s hs v hv
  obtain ⟨r2, he, _, hdec2⟩ := encode_decode_signal s (hwf s hs) raw hlt
  rw [hdec] at he hdec2
  exact ⟨v, r2, hv, he, hdec2⟩

theorem decodeSelected_eq (msg : CodecMessage) (V : String → Option SigValue)
    (pl : Nat → Bool)
    (hnames : (msg.signals.map CodecSignal.name).Nodup)
    (hwf : ∀ s ∈ msg.signals, WFSignal s)
    (hpos : ∀ s ∈ msg.signals, (bitPositions s).Nodup)
    (hdisj : ∀ s ∈ msg.signals, ∀ t ∈ msg.signals, t.name ≠ s.name →
      signalSelected msg V s = true → signalSelected msg V t = true →
      ∀ p ∈ bitPositions s, p ∉ bitPositions t)
    (hselwf : ∀ s ∈ msg.signals, ∀ c ∈ s.multiplexer_chain,
      ∃ sel ∈ msg.signals, sel.name = c.1 ∧ sel.is_multiplexer = true)
    (hdom : ∀ name, (V name).isSome = true ↔
      ∃ s ∈ msg.signals, s.name = name ∧ signalSelected msg V s = true)
    (hval : ∀ s ∈ msg.signals, ∀ v, V s.name = some v →
      ∃ raw, raw < 2 ^ s.length ∧ decodeRaw s raw = v)
    (hpl : encodeMessage msg V = some pl)
    (s : CodecSignal) (hs : s ∈ msg.signals) :
    decodeSelected msg pl s = signalSelected msg V s := by
  rw [Bool.eq_iff_iff]
  unfold decodeSelected signalSelected
  cases hm : s.is_multiplexer
  · simp only [hm, Bool.false_eq_true, if_false, List.all_eq_true]
    refine forall_congr' (fun c => ?_)
    refine imp_congr_right (fun hc => ?_)
    obtain ⟨sel, hselmem, hselname, hselmux⟩ := hselwf s hs c hc
    have hfind : msg.signals.find? (fun t => t.name == c.1) = some sel := by
      have h0 := find?_name_eq_of_nodup msg.signals hnames sel hselmem
      rw [hselname] at h0
      exact h0
    have hselsel : signalSelected msg V sel = true :=
      signalSelected_of_multiplexer msg V sel hselmux
    obtain ⟨w, r, hw, hr, _⟩ := selected_encodes msg V hwf hdom hval sel hselmem hselsel
    have hwsn : V c.1 = some w := by rw [← hselname]; exact hw
    have hdfor : ∀ t ∈ msg.signals, t.name ≠ sel.name →
        signalSelected msg V t = true →
        ∀ p ∈ bitPositions sel, p ∉ bitPositions t :=
      fun t ht hneq hselt => hdisj sel hselmem t ht hneq hselsel hselt
    have hex : extractBits (bitPositions sel) pl = r :=
      encodeMessage_extract msg V pl sel w r hnames (hpos sel hselmem)
        hdfor hselmem hselsel hw hr hpl
    simp only [hfind, hwsn, hr, hex]
  · simp [hm]

/-- Claim C1, stated over the spec-modelled codec: for every well-formed
message — including extended (nested) multiplexing via per-signal constraint
chains and float signals carried as IEEE bit patterns — and every value
mapping consistent with its multiplex selection (values exactly on the
selected signals, each representable by some in-range raw pattern), decoding
the encoding of the mapping yields the mapping back exactly: exact for
integer and enumerated signals as claimed, and exact at the bit-pattern
level for float signals, which is within the claimed floating-point
tolerance. -/
theorem c1_roundtrip (msg : CodecMessage) (V : String → Option SigValue)
    (hnames : (msg.signals.map CodecSignal.name).Nodup)
    (hwf : ∀ s ∈ msg.signals, WFSignal s)
    (hpos : ∀ s ∈ msg.signals, (bitPositions s).Nodup)
    (hdisj : ∀ s ∈ msg.signals, ∀ t ∈ msg.signals, t.name ≠ s.name →
      signalSelected msg V s = true → signalSelected msg V t = true →
      ∀ p ∈ bitPositions s, p ∉ bitPositions t)
    (hselwf : ∀ s ∈ msg.signals, ∀ c ∈ s.multiplexer_chain,
      ∃ sel ∈ msg.signals, sel.name = c.1 ∧ sel.is_multiplexer = true)
    (hdom : ∀ name, (V name).isSome = true ↔
      ∃ s ∈ msg.signals, s.name = name ∧ signalSelected msg V s = true)
    (hval : ∀ s ∈ msg.signals, ∀ v, V s.name = some v →
      ∃ raw, raw < 2 ^ s.length ∧ decodeRaw s raw = v) :
    ∃ pl, encodeMessage msg V = some pl ∧
      ∀ name, decodeMessage msg pl name = V name := by
  obtain ⟨pl, hpl⟩ := encodeSignals_isSome msg V msg.signals (fun _ => false)
    (fun s hs hsel => by
      obtain ⟨v, r, hv, hr, _⟩ := selected_encodes msg V hwf hdom hval s hs hsel
      exact ⟨v, r, hv, hr⟩)
  refine ⟨pl, hpl, ?_⟩
  intro name
  cases hfind : msg.signals.find? (fun t => t.name == name) with
  | none =>
    simp only [decodeMessage, hfind]
    cases hV : V name with
    | none => rfl
    | some v =>
      exfalso
      have hsome : (V name).isSome = true := by rw [hV]; rfl
      obtain ⟨s, hs, hname, _⟩ := (hdom name).1 hsome
      have hnone := List.find?_eq_none.1 hfind s hs
      simp [hname] at hnone
  | some s =>
    have hs : s ∈ msg.signals := List.mem_of_find?_eq_some hfind
    have hname : s.name = name := by simpa using List.find?_some hfind
    have hdsel := decodeSelected_eq msg V pl hnames hwf hpos hdisj hselwf hdom hval hpl s hs
    by_cases hsel : signalSelected msg V s = true
    · obtain ⟨v, r, hv, hr, hdec⟩ := selected_encodes msg V hwf hdom hval s hs hsel
      have hdfor : ∀ t ∈ msg.signals, t.name ≠ s.name → signalSelected msg V t = true →
          ∀ p ∈ bitPositions s, p ∉ bitPositions t :=
        fun t ht hneq hselt => hdisj s hs t ht hneq hsel hselt
      have hex : extractBits (bitPositions s) pl = r :=
        encodeMessage_extract msg V pl s v r hnames (hpos s hs)
          hdfor hs hsel hv hr hpl
      simp only [decodeMessage, hfind]
      rw [hdsel, if_pos hsel, hex, hdec, ← hname, hv]
    · have hself : signalSelected msg V s = false := by
        cases h2 : signalSelected msg V s
        · rfl
        · exact absurd h2 hsel
      simp only [decodeMessage, hfind]
      rw [hdsel, hself]
      simp only [Bool.false_eq_true, if_false]
      cases hV : V name with
      | none => rfl
      | some v =>
        exfalso
        have hsome : (V name).isSome = true := by rw [hV]; rfl
        obtain ⟨t, ht, htn, htsel⟩ := (hdom name).1 hsome
        have hts : t = s := List.inj_on_of_nodup_map hnames ht hs (htn.trans hname.symm)
        rw [hts] at htsel
        exact hsel htsel

/-- Top-level selector signal of the concrete round-trip witness message
(unconditional). -/
def wSel : CodecSignal :=
  { name := "Sel", start := 0, length := 2, byte_order := .little_endian,
    is_signed := false, is_float := false, scale := 1, offset := 0, choices := [],
    is_multiplexer := true, multiplexer_chain := [] }

/-- Second-level selector, itself multiplexed under the top selector
(extended multiplexing: a selector with its own constraint). -/
def wSub : CodecSignal :=
  { name := "Sub", start := 2, length := 2, byte_order := .little_endian,
    is_signed := false, is_float := false, scale := 1, offset := 0, choices := [],
    is_multiplexer := true, multiplexer_chain := [("Sel", [1])] }

/-- Multiplexed numeric signal present when the top selector value is 1. -/
def wA : CodecSignal :=
  { name := "A", start := 8, length := 4, byte_order := .little_endian,
    is_signed := false, is_float := false, scale := 1, offset := 0, choices := [],
    is_multiplexer := false, multiplexer_chain := [("Sel", [1])] }

/-- Multiplexed enumerated signal present when the top selector value is 2,
overlapping `wA` in bit range (legal: never simultaneously active). -/
def wB : CodecSignal :=
  { name := "B", start := 8, length := 4, byte_order := .little_endian,
    is_signed := false, is_float := false, scale := 1, offset := 0,
    choices := [(3, "X")], is_multiplexer := false, multiplexer_chain := [("Sel", [2])] }

/-- Nested-multiplex signal whose two-constraint chain requires the top
selector at 1 and the sub-selector at 2 simultaneously. -/
def wN : CodecSignal :=
  { name := "N", start := 16, length := 4, byte_order := .little_endian,
    is_signed := false, is_float := false, scale := 1, offset := 0, choices := [],
    is_multiplexer := false, multiplexer_chain := [("Sel", [1]), ("Sub", [2])] }

/-- Unconditional float signal, its value carried as an IEEE bit pattern. -/
def wF : CodecSignal :=
  { name := "F", start := 24, length := 32, byte_order := .little_endian,
    is_signed := false, is_float := true, scale := 1, offset := 0, choices := [],
    is_multiplexer := false, multiplexer_chain := [] }

/-- Concrete round-trip witness message: two nested selectors, two
alternative branch signals, a nested-multiplex signal and a float signal. -/
def wMsgC : CodecMessage := { name := "M", length := 7, signals := [wSel, wSub, wA, wB, wN, wF] }

/-- Concrete value mapping selecting branch A (selector 1) and, within it,
sub-branch 2; the unselected branch B carries no value. -/
def wV : String → Option SigValue := fun n =>
  if n = "Sel" then some (SigValue.num 1)
  else if n = "Sub" then some (SigValue.num 2)
  else if n = "A" then some (SigValue.num 5)
  else if n = "N" then some (SigValue.num 7)
  else if n = "F" then some (SigValue.floatBits 3)
  else none

theorem encode_num_eval (s : CodecSignal) (q : ℚ) (z : Int)
    (hfl : s.is_float = false)
    (harith : (q - s.offset) / s.scale = (z : ℚ))
    (hz : z % ((2 : Int) ^ s.length) = z) :
    encodePhysical s (SigValue.num q) = some z.toNat := by
  simp only [encodePhysical]
  rw [if_neg (by rw [hfl]; exact Bool.false_ne_true), harith, round_intCast, hz]

theorem e_sel : encodePhysical wSel (SigValue.num 1) = some 1 := by
  have h := encode_num_eval wSel 1 1 rfl (by norm_num [wSel]) (by decide)
  simpa using h

theorem e_sub : encodePhysical wSub (SigValue.num 2) = some 2 := by
  have h := encode_num_eval wSub 2 2 rfl (by norm_num [wSub]) (by decide)
  simpa using h

theorem e_a : encodePhysical wA (SigValue.num 5) = some 5 := by
  have h := encode_num_eval wA 5 5 rfl (by norm_num [wA]) (by decide)
  simpa using h

theorem d_sel : decodeRaw wSel 1 = SigValue.num 1 := by
  norm_num [decodeRaw, wSel]

theorem d_sub : decodeRaw wSub 2 = SigValue.num 2 := by
  norm_num [decodeRaw, wSub]

theorem d_a : decodeRaw wA 5 = SigValue.num 5 := by
  norm_num [decodeRaw, wA]

theorem d_n : decodeRaw wN 7 = SigValue.num 7 := by
  norm_num [decodeRaw, wN]

theorem d_f : decodeRaw wF 3 = SigValue.floatBits 3 := rfl

theorem sel_selected : signalSelected wMsgC wV wSel = true := rfl

theorem sub_selected : signalSelected wMsgC wV wSub = true := rfl

theorem f_selected : signalSelected wMsgC wV wF = true := rfl

theorem a_selected : signalSelected wMsgC wV wA = true := by
  unfold signalSelected
  have hfind : wMsgC.signals.find? (fun t => t.name == "Sel") = some wSel := rfl
  have hv : wV "Sel" = some (SigValue.num 1) := rfl
  simp only [show wA.is_multiplexer = false from rfl,
    show wA.multiplexer_chain = [("Sel", [1])] from rfl,
    List.all_cons, List.all_nil, hfind, hv, e_sel]
  decide

theorem n_selected : signalSelected wMsgC wV wN = true := by
  unfold signalSelected
  have hfind1 : wMsgC.signals.find? (fun t => t.name == "Sel") = some wSel := rfl
  have hfind2 : wMsgC.signals.find? (fun t => t.name == "Sub") = some wSub := rfl
  have hv1 : wV "Sel" = some (SigValue.num 1) := rfl
  have hv2 : wV "Sub" = some (SigValue.num 2) := rfl
  simp only [show wN.is_multiplexer = false from rfl,
    show wN.multiplexer_chain = [("Sel", [1]), ("Sub", [2])] from rfl,
    List.all_cons, List.all_nil, hfind1, hfind2, hv1, hv2, e_sel, e_sub]
  decide

theorem b_not_selected : signalSelected wMsgC wV wB = false := by
  unfold signalSelected
  have hfind : wMsgC.signals.find? (fun t => t.name == "Sel") = some wSel := rfl
  have hv : wV "Sel" = some (SigValue.num 1) := rfl
  simp only [show wB.is_multiplexer = false from rfl,
    show wB.multiplexer_chain = [("Sel", [2])] from rfl,
    List.all_cons, List.all_nil, hfind, hv, e_sel]
  decide

theorem wmsg_names_nodup : (wMsgC.signals.map CodecSignal.name).Nodup := by decide

theorem wmsg_wf : ∀ s ∈ wMsgC.signals, WFSignal s := by
  intro s hs
  simp [wMsgC] at hs
  rcases hs with rfl | rfl | rfl | rfl | rfl | rfl
  · norm_num [WFSignal, wSel]
  · norm_num [WFSignal, wSub]
  · norm_num [WFSignal, wA]
  · norm_num [WFSignal, wB]
  · norm_num [WFSignal, wN]
  · norm_num [WFSignal, wF]

theorem wmsg_pos_nodup : ∀ s ∈ wMsgC.signals, (bitPositions s).Nodup := by
  intro s hs
  simp [wMsgC] at hs
  rcases hs with rfl | rfl | rfl | rfl | rfl | rfl
  · decide
  · decide
  · decide
  · decide
  · decide
  · decide

theorem wmsg_disjoint : ∀ s ∈ wMsgC.signals, ∀ t ∈ wMsgC.signals, t.name ≠ s.name →
    signalSelected wMsgC wV s = true → signalSelected wMsgC wV t = true →
    ∀ p ∈ bitPositions s, p ∉ bitPositions t := by
  intro s hs t ht hneq hsels hselt
  simp [wMsgC] at hs ht
  rcases hs with rfl | rfl | rfl | rfl | rfl | rfl <;>
    rcases ht with rfl | rfl | rfl | rfl | rfl | rfl <;>
    first
      | exact absurd rfl hneq
      | exact absurd (b_not_selected ▸ hselt) (by decide)
      | exact absurd (b_not_selected ▸ hsels) (by decide)
      | decide

theorem wmsg_selwf : ∀ s ∈ wMsgC.signals, ∀ c ∈ s.multiplexer_chain,
    ∃ sel ∈ wMsgC.signals, sel.name = c.1 ∧ sel.is_multiplexer = true := by
  intro s hs c hc
  simp [wMsgC] at hs
  rcases hs with rfl | rfl | rfl | rfl | rfl | rfl
  · simp [wSel] at hc
  · simp [wSub] at hc
    subst hc
    exact ⟨wSel, by simp [wMsgC], rfl, rfl⟩
  · simp [wA] at hc
    subst hc
    exact ⟨wSel, by simp [wMsgC], rfl, rfl⟩
  · simp [wB] at hc
    subst hc
    exact ⟨wSel, by simp [wMsgC], rfl, rfl⟩
  · simp [wN] at hc
    rcases hc with rfl | rfl
    · exact ⟨wSel, by simp [wMsgC], rfl, rfl⟩
    · exact ⟨wSub, by simp [wMsgC], rfl, rfl⟩
  · simp [wF] at hc

theorem wmsg_dom : ∀ name, (wV name).isSome = true ↔
    ∃ s ∈ wMsgC.signals, s.name = name ∧ signalSelected wMsgC wV s = true := by
  intro name
  by_cases h1 : name = "Sel"
  · subst h1
    exact iff_of_true rfl ⟨wSel, by simp [wMsgC], rfl, sel_selected⟩
  · by_cases h2 : name = "Sub"
    · subst h2
      exact iff_of_true rfl ⟨wSub, by simp [wMsgC], rfl, sub_selected⟩
    · by_cases h3 : name = "A"
      · subst h3
        exact iff_of_true rfl ⟨wA, by simp [wMsgC], rfl, a_selected⟩
      · by_cases h4 : name = "N"
        · subst h4
          exact iff_of_true rfl ⟨wN, by simp [wMsgC], rfl, n_selected⟩
        · by_cases h5 : name = "F"
          · subst h5
            exact iff_of_true rfl ⟨wF, by simp [wMsgC], rfl, f_selected⟩
          · have hv : wV name = none := by simp [wV, h1, h2, h3, h4, h5]
            apply iff_of_false
            · rw [hv]
              simp
            · rintro ⟨s, hs, hname, hsel⟩
              simp [wMsgC] at hs
              rcases hs with rfl | rfl | rfl | rfl | rfl | rfl
              · exact h1 hname.symm
              · exact h2 hname.symm
              · exact h3 hname.symm
              · rw [b_not_selected] at hsel
                cases hsel
              · exact h4 hname.symm
              · exact h5 hname.symm

theorem wmsg_val : ∀ s ∈ wMsgC.signals, ∀ v, wV s.name = some v →
    ∃ raw, raw < 2 ^ s.length ∧ decodeRaw s raw = v := by
  intro s hs v hv
  simp [wMsgC] at hs
  rcases hs with rfl | rfl | rfl | rfl | rfl | rfl
  · have hv2 : some (SigValue.num 1) = some v := hv
    rw [← Option.some_inj.mp hv2]
    exact ⟨1, by decide, d_sel⟩
  · have hv2 : some (SigValue.num 2) = some v := hv
    rw [← Option.some_inj.mp hv2]
    exact ⟨2, by decide, d_sub⟩
  · have hv2 : some (SigValue.num 5) = some v := hv
    rw [← Option.some_inj.mp hv2]
    exact ⟨5, by decide, d_a⟩
  · simp [wV, wB] at hv
  · have hv2 : some (SigValue.num 7) = some v := hv
    rw [← Option.some_inj.mp hv2]
    exact ⟨7, by decide, d_n⟩
  · have hv2 : some (SigValue.floatBits 3) = some v := hv
    rw [← Option.some_inj.mp hv2]
    exact ⟨3, by decide, d_f⟩

/-- Witness for C1: encoding the concrete mapping — nested selectors, the
selected branch signals, the two-level-multiplexed signal and the float
signal — and decoding the resulting payload returns the mapping exactly. -/
theorem c1_roundtrip_witness :
    ∃ pl, encodeMessage wMsgC wV = some pl ∧
      ∀ name, decodeMessage wMsgC pl name = wV name :=
  c1_roundtrip wMsgC wV wmsg_names_nodup wmsg_wf wmsg_pos_nodup wmsg_disjoint
    wmsg_selwf wmsg_dom wmsg_val
